import Mathlib

/-!
Shallow embedding of the fetch/connect/signer orchestration of the NDK class
(`src/unnamed/part_000`) and of the Cashu lightning payment entry point
(`src/ndk-wallet/src/wallets/cashu/pay/ln.ts`), together with theorems that
settle the specification claims about them.

External collaborators that the embedded code merely calls
(`event.isReplaceable()`, `event.deduplicationKey()`, `dedupEvent`,
`filterFromId`) are taken as explicit function parameters of the embedded
operations, exactly as the source code treats them as opaque imports.
-/

namespace NdkSpec

/-- The fields of an event that the fetch orchestration reads: identity,
kind, author and creation timestamp. -/
structure NDKEvent where
  id : String
  kind : Nat
  pubkey : String
  created_at : Nat
deriving DecidableEq, Repr

/-- The signals that reach the promise executor installed by `NDK.fetchEvent`:
an `event` delivery from the subscription, the merged `eose` signal, and the
firing of the 10000 ms safety timeout `t2`. -/
inductive FetchSignal where
  | ev (e : NDKEvent)
  | eose
  | timeout
deriving DecidableEq, Repr

/-- What the `fetchEvent` promise executor did by the time it resolved:
the value passed to `resolve`, and whether `s.stop()` was invoked on the
subscription by `fetchEvent`'s own handlers (only the timeout handler
calls it in the source). -/
structure FetchOutcome where
  value : Option NDKEvent
  stopCalled : Bool
deriving DecidableEq, Repr

/-- The accumulator update of the replaceable branch of `fetchEvent`'s
event handler: `if (!fetchedEvent || fetchedEvent.created_at < event.created_at)
fetchedEvent = event`. -/
def keepNewest (fetchedEvent : Option NDKEvent) (e : NDKEvent) : NDKEvent :=
  match fetchedEvent with
  | none => e
  | some f => if f.created_at < e.created_at then e else f

/-- Runs the handlers installed by `NDK.fetchEvent` over a sequence of
signals, starting from the current `fetchedEvent` candidate.  Mirrors the
source: a non-replaceable event resolves immediately (without stopping the
subscription); a replaceable event only updates the newest-seen candidate;
`eose` resolves the candidate; the timeout stops the subscription and then
resolves the candidate.  Returns `none` when the trace ends before any
resolution happened. -/
def runFetch (isReplaceable : NDKEvent → Bool) :
    List FetchSignal → Option NDKEvent → Option FetchOutcome
  | [], _ => none
  | FetchSignal.ev e :: rest, fetchedEvent =>
      if isReplaceable e = false then
        some { value := some e, stopCalled := false }
      else
        runFetch isReplaceable rest (some (keepNewest fetchedEvent e))
  | FetchSignal.eose :: _, fetchedEvent =>
      some { value := fetchedEvent, stopCalled := false }
  | FetchSignal.timeout :: _, fetchedEvent =>
      some { value := fetchedEvent, stopCalled := true }

/-- A `fetchEvent` run in which the subscription delivers the events `l`
and then signals merged end-of-stream. -/
def fetchEventRun (isReplaceable : NDKEvent → Bool) (l : List NDKEvent) :
    Option FetchOutcome :=
  runFetch isReplaceable (l.map FetchSignal.ev ++ [FetchSignal.eose]) none

/-- The newest-seen candidate after folding `keepNewest` over the
deliveries, starting from `fetchedEvent = null`. -/
def newestSeen (l : List NDKEvent) : Option NDKEvent :=
  l.foldl (fun fe e => some (keepNewest fe e)) none

theorem runFetch_all_replaceable (isReplaceable : NDKEvent → Bool)
    (l : List NDKEvent) (fe : Option NDKEvent)
    (h : ∀ e ∈ l, isReplaceable e = true) :
    runFetch isReplaceable (l.map FetchSignal.ev ++ [FetchSignal.eose]) fe =
      some { value := l.foldl (fun a e => some (keepNewest a e)) fe,
             stopCalled := false } := by
  induction l generalizing fe with
  | nil => simp [runFetch]
  | cons e rest ih =>
      have he : isReplaceable e = true := h e (List.mem_cons_self e rest)
      simp only [List.map_cons, List.cons_append, runFetch, he]
      simp only [List.foldl_cons]
      exact ih (some (keepNewest fe e)) (fun x hx => h x (List.mem_cons_of_mem e hx))

theorem foldl_keepNewest_spec (l : List NDKEvent) (fe : Option NDKEvent) :
    ∀ m, l.foldl (fun a e => some (keepNewest a e)) fe = some m →
      (m ∈ l ∨ fe = some m) ∧
      (∀ y ∈ l, y.created_at ≤ m.created_at) ∧
      (∀ f, fe = some f → f.created_at ≤ m.created_at) := by
  induction l generalizing fe with
  | nil =>
      intro m hm
      simp only [List.foldl_nil] at hm
      refine ⟨Or.inr hm, ?_, ?_⟩
      · intro y hy; cases hy
      · intro f hf; rw [hm] at hf; cases hf; exact le_refl _
  | cons e rest ih =>
      intro m hm
      simp only [List.foldl_cons] at hm
      obtain ⟨hmem, hmax, hfe⟩ := ih (some (keepNewest fe e)) m hm
      have hk : (keepNewest fe e).created_at ≤ m.created_at := hfe _ rfl
      have hek : e.created_at ≤ (keepNewest fe e).created_at := by
        cases fe with
        | none => simp [keepNewest]
        | some f =>
            simp only [keepNewest]
            by_cases hlt : f.created_at < e.created_at
            · simp [hlt]
            · simp only [if_neg hlt]; exact le_of_not_lt hlt
      constructor
      · cases hmem with
        | inl h => exact Or.inl (List.mem_cons_of_mem e h)
        | inr h =>
            cases fe with
            | none =>
                simp only [keepNewest] at h
                cases h
                exact Or.inl (List.mem_cons_self e rest)
            | some f =>
                simp only [keepNewest] at h
                by_cases hlt : f.created_at < e.created_at
                · rw [if_pos hlt] at h; cases h
                  exact Or.inl (List.mem_cons_self e rest)
                · rw [if_neg hlt] at h; exact Or.inr h
      refine ⟨?_, ?_⟩
      · intro y hy
        rcases List.mem_cons.mp hy with hy | hy
        · subst hy; exact le_trans hek hk
        · exact hmax y hy
      · intro f hf
        cases hf
        have : f.created_at ≤ (keepNewest (some f) e).created_at := by
          simp only [keepNewest]
          by_cases hlt : f.created_at < e.created_at
          · rw [if_pos hlt]; exact le_of_lt hlt
          · rw [if_neg hlt]
        exact le_trans this hk

theorem foldl_keepNewest_some (l : List NDKEvent) :
    ∀ a, ∃ m, l.foldl (fun fe e => some (keepNewest fe e)) (some a) = some m := by
  induction l with
  | nil => intro a; exact ⟨a, rfl⟩
  | cons e rest ih =>
      intro a
      simp only [List.foldl_cons]
      exact ih (keepNewest (some a) e)

theorem newestSeen_isSome (l : List NDKEvent) (hne : l ≠ []) :
    ∃ m, newestSeen l = some m := by
  cases l with
  | nil => exact absurd rfl hne
  | cons e rest =>
      unfold newestSeen
      simp only [List.foldl_cons]
      exact foldl_keepNewest_some rest (keepNewest none e)

theorem max_unique_of_pairwise_ne (l : List NDKEvent)
    (hdist : l.Pairwise (fun a b => a.created_at ≠ b.created_at))
    (m₁ m₂ : NDKEvent) (h₁ : m₁ ∈ l) (h₂ : m₂ ∈ l)
    (hmax₁ : ∀ y ∈ l, y.created_at ≤ m₁.created_at)
    (hmax₂ : ∀ y ∈ l, y.created_at ≤ m₂.created_at) : m₁ = m₂ := by
  by_contra hne
  have hsym : Symmetric (fun a b : NDKEvent => a.created_at ≠ b.created_at) :=
    fun a b h => Ne.symm h
  have := List.Pairwise.forall hsym hdist h₁ h₂ hne
  exact this (le_antisymm (hmax₂ m₁ h₁) (hmax₁ m₂ h₂))

/-- Claim C1 counterexample: for two replaceable events with equal creation
timestamps, `fetchEvent` keeps the first delivered candidate — it neither
breaks the tie towards the lexicographically greatest identity (delivering
id `"a"` before id `"b"` at the same timestamp returns `"a"`), nor is the
result invariant under permuting the arrival order. -/
theorem fetchEvent_tie_break_counterexample :
    fetchEventRun (fun _ => true)
        [⟨"a", 0, "p", 5⟩, ⟨"b", 0, "p", 5⟩] =
      some { value := some ⟨"a", 0, "p", 5⟩, stopCalled := false } ∧
    fetchEventRun (fun _ => true)
        [⟨"b", 0, "p", 5⟩, ⟨"a", 0, "p", 5⟩] =
      some { value := some ⟨"b", 0, "p", 5⟩, stopCalled := false } ∧
    fetchEventRun (fun _ => true) [⟨"a", 0, "p", 5⟩, ⟨"b", 0, "p", 5⟩] ≠
      fetchEventRun (fun _ => true) [⟨"b", 0, "p", 5⟩, ⟨"a", 0, "p", 5⟩] := by
  refine ⟨?_, ?_, ?_⟩ <;> decide

/-- Claim C1 (amended): for a non-empty sequence of replaceable-kind
deliveries, `fetchEvent` resolves at merged end-of-stream with an event of
maximal creation timestamp (ties are kept by first arrival, not by greatest
identity); when the creation timestamps are pairwise distinct the resolved
event is the same for every permutation of the arrival order. -/
theorem fetchEvent_replaceable_newest (isReplaceable : NDKEvent → Bool)
    (l l' : List NDKEvent)
    (hrepl : ∀ e ∈ l, isReplaceable e = true)
    (hne : l ≠ [])
    (hperm : l.Perm l')
    (hdist : l.Pairwise (fun a b => a.created_at ≠ b.created_at)) :
    ∃ m, fetchEventRun isReplaceable l =
           some { value := some m, stopCalled := false } ∧
         m ∈ l ∧ (∀ y ∈ l, y.created_at ≤ m.created_at) ∧
         fetchEventRun isReplaceable l' =
           some { value := some m, stopCalled := false } := by
  obtain ⟨m, hm⟩ := newestSeen_isSome l hne
  have hrepl' : ∀ e ∈ l', isReplaceable e = true :=
    fun e he => hrepl e (hperm.mem_iff.mpr he)
  have hne' : l' ≠ [] := by
    intro h
    exact hne (List.Perm.eq_nil (h ▸ hperm))
  obtain ⟨m', hm'⟩ := newestSeen_isSome l' hne'
  obtain ⟨hmem, hmax, -⟩ := foldl_keepNewest_spec l none m hm
  obtain ⟨hmem', hmax', -⟩ := foldl_keepNewest_spec l' none m' hm'
  have hmem₁ : m ∈ l := by
    rcases hmem with h | h
    · exact h
    · cases h
  have hmem₂ : m' ∈ l := hperm.mem_iff.mpr (by
    rcases hmem' with h | h
    · exact h
    · cases h)
  have hmax₂ : ∀ y ∈ l, y.created_at ≤ m'.created_at :=
    fun y hy => hmax' y (hperm.mem_iff.mp hy)
  have heq : m = m' :=
    max_unique_of_pairwise_ne l hdist m m' hmem₁ hmem₂ hmax hmax₂
  refine ⟨m, ?_, hmem₁, hmax, ?_⟩
  · rw [fetchEventRun, runFetch_all_replaceable isReplaceable l none hrepl]
    unfold newestSeen at hm
    rw [hm]
  · rw [fetchEventRun, runFetch_all_replaceable isReplaceable l' none hrepl']
    unfold newestSeen at hm'
    rw [hm', ← heq]

/-- Witness for the amended claim C1 at a concrete input: three replaceable
deliveries with distinct timestamps, in two different arrival orders, both
resolving to the timestamp-30 event. -/
theorem fetchEvent_replaceable_newest_witness :
    ∃ m, fetchEventRun (fun _ => true)
           [⟨"a", 0, "p", 10⟩, ⟨"c", 0, "p", 30⟩, ⟨"b", 0, "p", 20⟩] =
             some { value := some m, stopCalled := false } ∧
         m ∈ [(⟨"a", 0, "p", 10⟩ : NDKEvent), ⟨"c", 0, "p", 30⟩, ⟨"b", 0, "p", 20⟩] ∧
         (∀ y ∈ [(⟨"a", 0, "p", 10⟩ : NDKEvent), ⟨"c", 0, "p", 30⟩, ⟨"b", 0, "p", 20⟩],
            y.created_at ≤ m.created_at) ∧
         fetchEventRun (fun _ => true)
           [⟨"b", 0, "p", 20⟩, ⟨"a", 0, "p", 10⟩, ⟨"c", 0, "p", 30⟩] =
             some { value := some m, stopCalled := false } :=
  fetchEvent_replaceable_newest (fun _ => true)
    [⟨"a", 0, "p", 10⟩, ⟨"c", 0, "p", 30⟩, ⟨"b", 0, "p", 20⟩]
    [⟨"b", 0, "p", 20⟩, ⟨"a", 0, "p", 10⟩, ⟨"c", 0, "p", 30⟩]
    (by decide) (by decide) (by decide) (by decide)

/-- Claim C2 counterexample: when the first delivered event is
non-replaceable, `fetchEvent` resolves with it at once, but its handlers do
not invoke `s.stop()` — in the source only the timeout handler calls
`s.stop()`, while the event handler merely clears the timers and resolves —
so the subscription is not cancelled at that moment. -/
theorem fetchEvent_no_stop_counterexample :
    runFetch (fun _ => false) [FetchSignal.ev ⟨"a", 1, "p", 1⟩] none =
      some { value := some ⟨"a", 1, "p", 1⟩, stopCalled := false } ∧
    (runFetch (fun _ => false) [FetchSignal.ev ⟨"a", 1, "p", 1⟩] none).map
        FetchOutcome.stopCalled ≠ some true := by
  refine ⟨by decide, by decide⟩

/-- Claim C2 (amended): when the first signal is a non-replaceable matching
event, `fetchEvent` resolves with that event immediately — the rest of the
trace is never consulted — but the subscription is not stopped by
`fetchEvent` at that point (`stopCalled = false`); it is left to close on
EOSE via the `closeOnEose` option. -/
theorem fetchEvent_first_nonreplaceable (isReplaceable : NDKEvent → Bool)
    (e : NDKEvent) (rest : List FetchSignal) (fe : Option NDKEvent)
    (h : isReplaceable e = false) :
    runFetch isReplaceable (FetchSignal.ev e :: rest) fe =
      some { value := some e, stopCalled := false } := by
  simp [runFetch, h]

/-- Witness for the amended claim C2 at a concrete input. -/
theorem fetchEvent_first_nonreplaceable_witness :
    runFetch (fun ev => decide (ev.kind = 0))
        (FetchSignal.ev ⟨"x", 1, "p", 7⟩ :: [FetchSignal.eose]) none =
      some { value := some ⟨"x", 1, "p", 7⟩, stopCalled := false } :=
  fetchEvent_first_nonreplaceable (fun ev => decide (ev.kind = 0))
    ⟨"x", 1, "p", 7⟩ [FetchSignal.eose] none (by decide)

/-- Claim C4: when no matching event is ever delivered — every signal in the
trace is a merged end-of-stream or the bounded-timeout firing — `fetchEvent`
resolves (it never rejects) with the explicit not-found value `null` at the
first such signal. -/
theorem fetchEvent_not_found (isReplaceable : NDKEvent → Bool)
    (sigs : List FetchSignal)
    (h1 : ∀ s ∈ sigs, s = FetchSignal.eose ∨ s = FetchSignal.timeout)
    (h2 : sigs ≠ []) :
    ∃ o, runFetch isReplaceable sigs none = some o ∧ o.value = none := by
  cases sigs with
  | nil => exact absurd rfl h2
  | cons s rest =>
      rcases h1 s (List.mem_cons_self s rest) with h | h <;> subst h
      · exact ⟨{ value := none, stopCalled := false }, rfl, rfl⟩
      · exact ⟨{ value := none, stopCalled := true }, rfl, rfl⟩

/-- Witness for claim C4 at a concrete input: a run that only ever sees the
merged end-of-stream signal resolves to `null`. -/
theorem fetchEvent_not_found_witness :
    ∃ o, runFetch (fun _ => true) [FetchSignal.eose] none = some o ∧
         o.value = none :=
  fetchEvent_not_found (fun _ => true) [FetchSignal.eose]
    (by decide) (by decide)

/-- Embeds `Map.get` on the dedup map of `fetchEvents`, embedded as an association
list keyed by dedup key. -/
def assocGet (k : String) : List (String × NDKEvent) → Option NDKEvent
  | [] => none
  | (k', v) :: rest => if k' = k then some v else assocGet k rest

/-- Embeds `Map.set` on the dedup map of `fetchEvents`: replaces the entry for an
existing key in place, otherwise appends (JS `Map` insertion-order
semantics). -/
def assocSet (k : String) (v : NDKEvent) :
    List (String × NDKEvent) → List (String × NDKEvent)
  | [] => [(k, v)]
  | (k', v') :: rest =>
      if k' = k then (k', v) :: rest else (k', v') :: assocSet k v rest

/-- The `onEvent` handler of `NDK.fetchEvents`: computes the dedup key,
merges with an existing same-key entry through `dedupEvent`, and stores the
result under the key.  `deduplicationKey` and `dedupEvent` are external
collaborators and are taken as parameters. -/
def fetchEventsOnEvent (dedupKey : NDKEvent → String)
    (dedupEvent : NDKEvent → NDKEvent → NDKEvent)
    (events : List (String × NDKEvent)) (e : NDKEvent) :
    List (String × NDKEvent) :=
  let k := dedupKey e
  let e' := match assocGet k events with
    | some existingEvent => dedupEvent existingEvent e
    | none => e
  assocSet k e' events

/-- The dedup map `fetchEvents` has accumulated when the merged
end-of-stream signal fires, after observing `deliveries` (raw `event` and
`event:dup` deliveries in arrival order); the promise resolves with the set
of its values. -/
def fetchEventsRun (dedupKey : NDKEvent → String)
    (dedupEvent : NDKEvent → NDKEvent → NDKEvent)
    (deliveries : List NDKEvent) : List (String × NDKEvent) :=
  deliveries.foldl (fetchEventsOnEvent dedupKey dedupEvent) []

/-- Key-list effect of one key insertion: append the key if absent,
otherwise leave the key list unchanged. -/
def insKey (ks : List String) (k : String) : List String :=
  if k ∈ ks then ks else ks ++ [k]

theorem assocSet_keys (k : String) (v : NDKEvent)
    (m : List (String × NDKEvent)) :
    (assocSet k v m).map Prod.fst = insKey (m.map Prod.fst) k := by
  induction m with
  | nil => simp [assocSet, insKey]
  | cons p rest ih =>
      obtain ⟨k', v'⟩ := p
      by_cases hk : k' = k
      · subst hk
        simp [assocSet, insKey]
      · simp only [assocSet, if_neg hk, List.map_cons]
        rw [ih]
        simp only [insKey, List.map_cons, List.mem_cons]
        by_cases hmem : k ∈ rest.map Prod.fst
        · simp [hmem, Ne.symm hk]
        · simp [hmem, Ne.symm hk]

theorem fetchEventsOnEvent_keys (dedupKey : NDKEvent → String)
    (dedupEvent : NDKEvent → NDKEvent → NDKEvent)
    (m : List (String × NDKEvent)) (e : NDKEvent) :
    (fetchEventsOnEvent dedupKey dedupEvent m e).map Prod.fst =
      insKey (m.map Prod.fst) (dedupKey e) := by
  unfold fetchEventsOnEvent
  cases assocGet (dedupKey e) m <;> simp [assocSet_keys]

theorem fetchEventsRun_keys_aux (dedupKey : NDKEvent → String)
    (dedupEvent : NDKEvent → NDKEvent → NDKEvent)
    (deliveries : List NDKEvent) :
    ∀ m : List (String × NDKEvent),
      ((deliveries.foldl (fetchEventsOnEvent dedupKey dedupEvent) m).map
          Prod.fst) =
        (deliveries.map dedupKey).foldl insKey (m.map Prod.fst) := by
  induction deliveries with
  | nil => intro m; rfl
  | cons e rest ih =>
      intro m
      simp only [List.foldl_cons, List.map_cons]
      rw [ih (fetchEventsOnEvent dedupKey dedupEvent m e),
        fetchEventsOnEvent_keys]

theorem insKey_nodup (ks : List String) (k : String) (h : ks.Nodup) :
    (insKey ks k).Nodup := by
  unfold insKey
  by_cases hmem : k ∈ ks
  · simpa [hmem]
  · simp only [if_neg hmem]
    simpa [List.nodup_append] using ⟨h, hmem⟩

theorem insKey_toFinset (ks : List String) (k : String) :
    (insKey ks k).toFinset = insert k ks.toFinset := by
  unfold insKey
  by_cases hmem : k ∈ ks
  · simp only [if_pos hmem]
    have : k ∈ ks.toFinset := List.mem_toFinset.mpr hmem
    rw [Finset.insert_eq_self.mpr this]
  · simp only [if_neg hmem, List.toFinset_append, List.toFinset_cons,
      List.toFinset_nil, insert_emptyc_eq]
    rw [Finset.insert_eq, Finset.union_comm]

theorem foldl_insKey_spec (ks : List String) :
    ∀ ks₀ : List String, ks₀.Nodup →
      (ks.foldl insKey ks₀).Nodup ∧
      (ks.foldl insKey ks₀).toFinset = ks₀.toFinset ∪ ks.toFinset := by
  induction ks with
  | nil =>
      intro ks₀ h0
      simpa using h0
  | cons k rest ih =>
      intro ks₀ h0
      simp only [List.foldl_cons]
      obtain ⟨hn, hf⟩ := ih (insKey ks₀ k) (insKey_nodup ks₀ k h0)
      refine ⟨hn, ?_⟩
      rw [hf, insKey_toFinset]
      simp [Finset.insert_union, Finset.union_insert]

/-- Claim C3: the dedup map that `fetchEvents` resolves from at merged
end-of-stream has pairwise-distinct keys, its key set is exactly the set of
dedup keys observed across all raw deliveries, and its size equals the
number of distinct dedup keys — not the number of raw deliveries. -/
theorem fetchEvents_distinct_keys (dedupKey : NDKEvent → String)
    (dedupEvent : NDKEvent → NDKEvent → NDKEvent)
    (deliveries : List NDKEvent) :
    ((fetchEventsRun dedupKey dedupEvent deliveries).map Prod.fst).Nodup ∧
    ((fetchEventsRun dedupKey dedupEvent deliveries).map Prod.fst).toFinset =
      (deliveries.map dedupKey).toFinset ∧
    (fetchEventsRun dedupKey dedupEvent deliveries).length =
      (deliveries.map dedupKey).toFinset.card := by
  have hkeys := fetchEventsRun_keys_aux dedupKey dedupEvent deliveries []
  obtain ⟨hn, hf⟩ := foldl_insKey_spec (deliveries.map dedupKey) [] List.nodup_nil
  simp only [List.toFinset_nil, Finset.empty_union] at hf
  rw [List.map_nil] at hkeys
  refine ⟨hkeys ▸ hn, hkeys ▸ hf, ?_⟩
  have hlen : (fetchEventsRun dedupKey dedupEvent deliveries).length =
      ((fetchEventsRun dedupKey dedupEvent deliveries).map Prod.fst).length :=
    (List.length_map _ _).symm
  rw [hlen]
  show (List.map Prod.fst
      (List.foldl (fetchEventsOnEvent dedupKey dedupEvent) [] deliveries)).length = _
  rw [hkeys, ← hf]
  exact (List.toFinset_card_of_nodup hn).symm

/-- The settlement of one promise, as reported by `Promise.allSettled`. -/
inductive Settled (ε α : Type) where
  | fulfilled (value : α)
  | rejected (reason : ε)
deriving DecidableEq, Repr

/-- Embeds `Promise.allSettled`: waits for every promise and reports each outcome
as a settlement record; the aggregate promise itself always fulfills. -/
def promiseAllSettled {ε α : Type} (ps : List (Except ε α)) :
    Except ε (List (Settled ε α)) :=
  Except.ok (ps.map fun p =>
    match p with
    | Except.ok a => Settled.fulfilled a
    | Except.error e => Settled.rejected e)

/-- Embeds `NDK.connect`: optionally awaits the signer's relay list (a rejection
there propagates, since it is awaited directly), then starts the main-pool
connect and, when an outbox pool exists, the outbox-pool connect, and
returns `Promise.allSettled(connections).then(() => \x7b\x7d)`. -/
def connect (signerRelays : Option (Except String (List String)))
    (poolConnect : Except String Unit)
    (outboxConnect : Option (Except String Unit)) : Except String Unit :=
  match signerRelays with
  | some (Except.error e) => Except.error e
  | _ =>
      let connections :=
        poolConnect :: (match outboxConnect with
          | some c => [c]
          | none => [])
      match promiseAllSettled connections with
      | Except.ok _ => Except.ok ()
      | Except.error e => Except.error e

/-- Claim C5: `NDK.connect` resolves normally for every combination of
pool-level connect outcomes — a pool's (or any individual relay's) connect
failure is absorbed by `Promise.allSettled` and never propagated as a
rejection to the caller (assuming the optional signer relay-list lookup,
which precedes the pool connects, does not itself reject). -/
theorem connect_never_rejects (signerRelays : Option (Except String (List String)))
    (poolConnect : Except String Unit)
    (outboxConnect : Option (Except String Unit))
    (h : signerRelays = none ∨ ∃ rs, signerRelays = some (Except.ok rs)) :
    connect signerRelays poolConnect outboxConnect = Except.ok () := by
  rcases h with h | ⟨rs, h⟩ <;> subst h <;>
    cases outboxConnect <;> rfl

/-- Witness for claim C5 at a concrete input: both the main-pool and the
outbox-pool connect attempts reject, yet `connect` resolves. -/
theorem connect_never_rejects_witness :
    connect (some (Except.ok ["wss://signer.relay/"]))
        (Except.error "pool connect failed")
        (some (Except.error "outbox connect failed")) = Except.ok () :=
  connect_never_rejects (some (Except.ok ["wss://signer.relay/"]))
    (Except.error "pool connect failed")
    (some (Except.error "outbox connect failed"))
    (Or.inr ⟨["wss://signer.relay/"], rfl⟩)

/-- A relay object: its URL together with an object identity distinguishing
separately-constructed instances (`new NDKRelay(url)` always yields a fresh
object). -/
structure NDKRelay where
  url : String
  instId : Nat
deriving DecidableEq, Repr

/-- The relay pool's registry: normalized URL to relay instance. -/
structure NDKPoolState where
  relays : List (String × NDKRelay)
deriving DecidableEq, Repr

/-- Modelled from the spec: `NDKPool.addRelay` is not part of the provided
source; per the spec, "`addRelay(relay, autoConnect=true)` registers or
reuses an existing Relay for that URL" and "no two Relay instances for the
same normalized URL" live in the pool, so a URL already registered keeps
its existing instance. -/
def poolAddRelay (pool : NDKPoolState) (relay : NDKRelay) : NDKPoolState :=
  if relay.url ∈ pool.relays.map Prod.fst then pool
  else { relays := pool.relays ++ [(relay.url, relay)] }

theorem poolAddRelay_mem_url (pool : NDKPoolState) (relay : NDKRelay) :
    relay.url ∈ (poolAddRelay pool relay).relays.map Prod.fst := by
  unfold poolAddRelay
  by_cases h : relay.url ∈ pool.relays.map Prod.fst
  · simp [h]
  · simp [h]

/-- The state of the NDK instance touched by `addExplicitRelay`, plus a
fresh-object counter standing for JavaScript object identity. -/
structure NDKState where
  pool : NDKPoolState
  explicitRelayUrls : List String
  nextObjId : Nat
deriving DecidableEq, Repr

/-- Embeds `NDK.addExplicitRelay`: for a URL string it constructs a fresh
`NDKRelay`, otherwise it takes the given relay; it registers that relay
with the pool, appends its URL to `explicitRelayUrls`, and returns the
local `relay` variable — not whatever instance the pool holds. -/
def addExplicitRelay (st : NDKState) (urlOrRelay : Sum String NDKRelay) :
    NDKRelay × NDKState :=
  match urlOrRelay with
  | Sum.inl url =>
      let relay : NDKRelay := { url := url, instId := st.nextObjId }
      (relay,
       { pool := poolAddRelay st.pool relay,
         explicitRelayUrls := st.explicitRelayUrls ++ [relay.url],
         nextObjId := st.nextObjId + 1 })
  | Sum.inr relay =>
      (relay,
       { pool := poolAddRelay st.pool relay,
         explicitRelayUrls := st.explicitRelayUrls ++ [relay.url],
         nextObjId := st.nextObjId })

/-- Claim C6 counterexample: starting from an empty NDK instance, two
`addExplicitRelay` calls with the same URL string return two distinct
relay objects — the second call does not return the pool's canonical
instance. -/
theorem addExplicitRelay_counterexample :
    (addExplicitRelay
        (addExplicitRelay ⟨⟨[]⟩, [], 0⟩ (Sum.inl "wss://relay.example/")).2
        (Sum.inl "wss://relay.example/")).1 ≠
      (addExplicitRelay ⟨⟨[]⟩, [], 0⟩ (Sum.inl "wss://relay.example/")).1 := by
  decide

/-- Claim C6 (amended): `addExplicitRelay` registers the relay with the
pool — which keeps the first instance per URL, so a repeated URL leaves the
pool unchanged — but it returns the relay it constructed (or was passed)
rather than the pool's canonical instance, so two calls with the same URL
string return distinct Relay objects. -/
theorem addExplicitRelay_returns_fresh (st : NDKState) (url : String) :
    (addExplicitRelay st (Sum.inl url)).1 ≠
      (addExplicitRelay (addExplicitRelay st (Sum.inl url)).2
        (Sum.inl url)).1 ∧
    (addExplicitRelay (addExplicitRelay st (Sum.inl url)).2
        (Sum.inl url)).2.pool =
      (addExplicitRelay st (Sum.inl url)).2.pool := by
  constructor
  · intro h
    have := congrArg NDKRelay.instId h
    simp only [addExplicitRelay] at this
    exact Nat.succ_ne_self st.nextObjId this.symm
  · have hmem :
        url ∈ ((addExplicitRelay st (Sum.inl url)).2.pool.relays.map Prod.fst) :=
      poolAddRelay_mem_url st.pool { url := url, instId := st.nextObjId }
    show poolAddRelay (addExplicitRelay st (Sum.inl url)).2.pool
        { url := url, instId := (addExplicitRelay st (Sum.inl url)).2.nextObjId } =
      (addExplicitRelay st (Sum.inl url)).2.pool
    unfold poolAddRelay
    simp [hmem]

/-- The JavaScript `x || d` fallback on a possibly-absent number: `0` is
falsy, so it falls through to the default. -/
def jsNumberOr (x : Option ℚ) (dflt : ℚ) : ℚ :=
  match x with
  | none => dflt
  | some v => if v = 0 then dflt else v

/-- The constructor line `this.validationRatio = opts.validationRatio || 1.0`. -/
def mkValidationRatio (optsValidationRatio : Option ℚ) : ℚ :=
  jsNumberOr optsValidationRatio 1

/-- Claim C7 counterexample: the in-range ratio `0.0` is falsy in
JavaScript, so `opts.validationRatio || 1.0` yields `1.0`, not `0.0`. -/
theorem validationRatio_zero_counterexample :
    (0 : ℚ) ≤ 0 ∧ (0 : ℚ) ≤ 1 ∧ mkValidationRatio (some 0) = 1 ∧
      mkValidationRatio (some 0) ≠ 0 := by
  refine ⟨le_refl 0, by norm_num, rfl, by norm_num [ mkValidationRatio, jsNumberOr]⟩

/-- Claim C7 (amended): for every `r` with `0 < r ≤ 1` the constructed
instance's `validationRatio` equals `r`; when the option is unspecified —
or set to the falsy value `0` — it is `1.0`. -/
theorem validationRatio_spec (r : ℚ) (h0 : 0 < r) (_h1 : r ≤ 1) :
    mkValidationRatio (some r) = r ∧ mkValidationRatio none = 1 ∧
      mkValidationRatio (some 0) = 1 := by
  refine ⟨?_, rfl, rfl⟩
  simp [ mkValidationRatio, jsNumberOr, ne_of_gt h0]

/-- Witness for the amended claim C7 at the concrete ratio `1/2`. -/
theorem validationRatio_spec_witness :
    mkValidationRatio (some (1 / 2)) = 1 / 2 ∧ mkValidationRatio none = 1 ∧
      mkValidationRatio (some 0) = 1 :=
  validationRatio_spec (1 / 2) (by norm_num) (by norm_num)

/-- A notification emitted on the NDK event emitter. -/
inductive NdkEmission where
  | signerRequired
deriving DecidableEq, Repr

/-- Embeds `NDK.assertSigner`: with no signer configured it emits
`signer:required` and then throws `"Signer required"`; with a signer it
returns without emitting.  The returned list holds the emissions in order,
all of which happen before the `Except` result is produced. -/
def assertSigner (signer : Option String) :
    List NdkEmission × Except String Unit :=
  match signer with
  | none => ([NdkEmission.signerRequired], Except.error "Signer required")
  | some _ => ([], Except.ok ())

/-- Claim C8: `assertSigner` throws the synchronous `"Signer required"`
error exactly in the no-signer case, emitting `signer:required` before the
throw; with a signer configured it returns successfully with no emission. -/
theorem assertSigner_spec :
    assertSigner none =
      ([NdkEmission.signerRequired], Except.error "Signer required") ∧
    (∀ s : String, assertSigner (some s) = ([], Except.ok ())) ∧
    (∀ signer : Option String,
      ((assertSigner signer).2 = Except.error "Signer required" ↔
        signer = none)) := by
  refine ⟨rfl, fun s => rfl, fun signer => ?_⟩
  cases signer with
  | none => simp [assertSigner]
  | some s => simp [assertSigner]

/-- The filter shape consumed by `fetchEvent`: optional ids, kinds and
authors constraints (the fields the orchestration reads). -/
structure NDKFilter where
  ids : List String
  kinds : List Nat
  authors : List String
deriving DecidableEq, Repr

/-- The synchronous phase of `NDK.fetchEvent` before the promise executor
runs: derive a filter (`filterFromId`, an external collaborator, for string
identifiers), throw `Invalid filter` when none was derived, and otherwise
proceed to create and register exactly one subscription.  Returns the
outcome together with the number of subscriptions registered with the
manager. -/
def fetchEventSetup (filterFromId : String → Option NDKFilter) :
    Sum String NDKFilter → Except String NDKFilter × Nat
  | Sum.inl idString =>
      match filterFromId idString with
      | none =>
          (Except.error ("Invalid filter: \x22" ++ idString ++ "\x22"), 0)
      | some filter => (Except.ok filter, 1)
  | Sum.inr filter => (Except.ok filter, 1)

/-- Claim C9: for a string identifier from which no filter can be derived,
`fetchEvent` rejects with an `Invalid filter` error and registers no
subscription with the manager. -/
theorem fetchEvent_invalid_filter (filterFromId : String → Option NDKFilter)
    (idString : String) (h : filterFromId idString = none) :
    fetchEventSetup filterFromId (Sum.inl idString) =
      (Except.error ("Invalid filter: \x22" ++ idString ++ "\x22"), 0) := by
  simp [fetchEventSetup, h]

/-- Witness for claim C9 at a concrete input. -/
theorem fetchEvent_invalid_filter_witness :
    fetchEventSetup (fun _ => none) (Sum.inl "nevent1garbage") =
      (Except.error ("Invalid filter: \x22" ++ "nevent1garbage" ++ "\x22"), 0) :=
  fetchEvent_invalid_filter (fun _ => none) "nevent1garbage" rfl

/-- A notification emitted on the Cashu wallet emitter. -/
inductive WalletEmission where
  | insufficientBalance (amount : ℚ) (pr : String)
deriving DecidableEq, Repr

/-- The outcome of `payLn`'s dispatch: the mints it went on to attempt
payment with, a promise rejection, or a synchronous throw. -/
inductive PayLnResult where
  | attempted (mints : List String)
  | rejected (reason : String)
  | thrown (reason : String)
deriving DecidableEq, Repr

/-- Embeds `getEligibleMints`: the mints whose balance covers the amount,
restricted to `useMint` when one is given. -/
def getEligibleMints (mintBalances : List (String × ℚ)) (amount : ℚ)
    (useMint : Option String) : List String :=
  (mintBalances.filter fun p =>
      (match useMint with
       | some u => decide (p.1 = u)
       | none => true) &&
      !decide (p.2 < amount)).map Prod.fst

/-- Embeds `payLn`: throws on a missing payment request, converts the msat amount
to sats, and when no eligible mint exists emits `insufficient_balance`
(carrying the amount and the payment request) on the wallet and rejects;
otherwise it goes on to attempt payment with the eligible mints. -/
def payLn (mintBalances : List (String × ℚ)) (amountMsat : ℚ) (pr : String)
    (useMint : Option String) : List WalletEmission × PayLnResult :=
  if pr = "" then ([], PayLnResult.thrown "missing pr")
  else
    let amount := amountMsat / 1000
    let eligibleMints := getEligibleMints mintBalances amount useMint
    if eligibleMints = [] then
      ([WalletEmission.insufficientBalance amount pr],
       PayLnResult.rejected "no mint with sufficient balance found")
    else
      ([], PayLnResult.attempted eligibleMints)

theorem getEligibleMints_eq_nil (mintBalances : List (String × ℚ))
    (amount : ℚ) (useMint : Option String)
    (h : ∀ p ∈ mintBalances,
      p.2 < amount ∨ ∃ u, useMint = some u ∧ p.1 ≠ u) :
    getEligibleMints mintBalances amount useMint = [] := by
  unfold getEligibleMints
  rw [List.map_eq_nil_iff, List.filter_eq_nil_iff]
  intro p hp
  rcases h p hp with hlt | ⟨u, hu, hne⟩
  · simp [hlt]
  · subst hu
    simp [hne]

/-- Claim C10: when no mint balance covers the requested (sat-converted)
amount — or a `useMint` is given and every entry for another mint or with
insufficient balance is excluded — `payLn` emits `insufficient_balance`
with the amount and payment request on the wallet and rejects with
`"no mint with sufficient balance found"`, without attempting any
payment. -/
theorem payLn_insufficient_balance (mintBalances : List (String × ℚ))
    (amountMsat : ℚ) (pr : String) (useMint : Option String)
    (hpr : pr ≠ "")
    (h : ∀ p ∈ mintBalances,
      p.2 < amountMsat / 1000 ∨ ∃ u, useMint = some u ∧ p.1 ≠ u) :
    payLn mintBalances amountMsat pr useMint =
      ([WalletEmission.insufficientBalance (amountMsat / 1000) pr],
       PayLnResult.rejected "no mint with sufficient balance found") := by
  unfold payLn
  rw [if_neg hpr]
  simp [getEligibleMints_eq_nil mintBalances (amountMsat / 1000) useMint h]

/-- Witness for claim C10 at a concrete input: one mint with balance 5 sat
cannot cover a 10000 msat (10 sat) request. -/
theorem payLn_insufficient_balance_witness :
    payLn [("https://mint.example/", 5)] 10000 "lnbc10n1invoice" none =
      ([WalletEmission.insufficientBalance (10000 / 1000) "lnbc10n1invoice"],
       PayLnResult.rejected "no mint with sufficient balance found") :=
  payLn_insufficient_balance [("https://mint.example/", 5)] 10000
    "lnbc10n1invoice" none (by decide)
    (by
      intro p hp
      rcases List.mem_singleton.mp hp with rfl
      exact Or.inl (by norm_num))

end NdkSpec
